import Mathlib

/-
Verification of the oathkeeper block-document editor (main.go).

This file gives a shallow embedding, in Lean, of the parts of the program that
carry its specified invariants: the bounded LRU render cache, the notation
renderer (macro substitution, script translation, inline formatting, and the
per-line validation pass), the completion engine, the plain-Unicode exporter,
the block create/delete operations of the edit controller, and document
loading.  Each definition is translated directly from the corresponding Go
function; deliberate modelling choices (e.g. a fixed iteration order standing
in for Go's unspecified map range order) are noted at the definition site.
Theorems at the end of the file settle the specified properties.
-/

set_option maxHeartbeats 1000000

/-- Diagnostic record of the validation pass: line, column, message, severity.
Mirrors the Diagnostic struct of main.go; Go int fields become Int. -/
structure Diagnostic where
  Line : Int
  Column : Int
  Message : String
  Severity : String
  deriving DecidableEq, Repr

/-- Result of rendering one block: Unicode preview text, diagnostics, and the
render timestamp.  Mirrors RenderedBlock of main.go; the wall-clock timestamp
is modelled as a Nat supplied by the caller. -/
structure RenderedBlock where
  Unicode : List Char
  Errors : List Diagnostic
  LastModified : Nat
  deriving DecidableEq, Repr

/-- Bounded LRU cache, mirroring LRUCache of main.go.  The Go struct keeps a
doubly linked list (front = most recently used) plus a map from key to list
element; the map is derivable from the list, so the model keeps only the list
of key/value pairs, head = most recently used. -/
structure LRUCache (K V : Type) where
  capacity : Nat
  order : List (K × V)
  deriving DecidableEq

/-- Mirrors newLRUCache of main.go: empty cache of the given capacity. -/
def newLRUCache (K V : Type) (capacity : Nat) : LRUCache K V :=
  ⟨capacity, []⟩

/-- Mirrors LRUCache.Get of main.go: on a hit, move the element to the front
and return its value; on a miss return nothing and leave the cache unchanged. -/
def LRUCache.Get {K V : Type} [DecidableEq K] (c : LRUCache K V) (k : K) :
    Option V × LRUCache K V :=
  match c.order.find? (fun e => decide (e.1 = k)) with
  | some e => (some e.2, ⟨c.capacity, e :: c.order.eraseP (fun x => decide (x.1 = k))⟩)
  | none => (none, c)

/-- Mirrors LRUCache.Put of main.go: an existing key is updated and moved to
the front; otherwise, if the list is at (or beyond) capacity the back element
is removed first, then the new pair is pushed to the front. -/
def LRUCache.Put {K V : Type} [DecidableEq K] (c : LRUCache K V) (k : K) (v : V) :
    LRUCache K V :=
  match c.order.find? (fun e => decide (e.1 = k)) with
  | some _ => ⟨c.capacity, (k, v) :: c.order.eraseP (fun x => decide (x.1 = k))⟩
  | none =>
    if c.capacity ≤ c.order.length then
      ⟨c.capacity, (k, v) :: c.order.dropLast⟩
    else
      ⟨c.capacity, (k, v) :: c.order⟩

/-- A cache operation: either a Get for a key or a Put of a key/value pair. -/
inductive CacheOp (K V : Type) where
  | get (k : K)
  | put (k : K) (v : V)

/-- State effect of one cache operation. -/
def applyOp {K V : Type} [DecidableEq K] (c : LRUCache K V) : CacheOp K V → LRUCache K V
  | CacheOp.get k => (c.Get k).2
  | CacheOp.put k v => c.Put k v

/-- Run a sequence of cache operations left to right. -/
def runOps {K V : Type} [DecidableEq K] (c : LRUCache K V) (ops : List (CacheOp K V)) :
    LRUCache K V :=
  ops.foldl applyOp c

/-- The Put-only operation sequence inserting the given keys in order, all with
the same value. -/
def putOps {K V : Type} (v : V) (ks : List K) : List (CacheOp K V) :=
  ks.map (fun k => CacheOp.put k v)


/-- Left-to-right, non-overlapping replacement of a pattern, with explicit
fuel.  Mirrors Go strings.ReplaceAll for a non-empty pattern (every pattern
in this program is non-empty; an empty pattern leaves the text unchanged
here).  Fuel at least the length of the text suffices, since every step
consumes at least one character. -/
def replaceAllFuel (old new : List Char) : Nat → List Char → List Char
  | 0, s => s
  | _ + 1, [] => []
  | fuel + 1, c :: rest =>
    if old ≠ [] ∧ old.isPrefixOf (c :: rest) = true then
      new ++ replaceAllFuel old new fuel ((c :: rest).drop old.length)
    else
      c :: replaceAllFuel old new fuel rest

/-- Mirrors Go strings.ReplaceAll (non-empty pattern). -/
def replaceAll (old new s : List Char) : List Char :=
  replaceAllFuel old new s.length s

/-- The macro table of newRenderModel in main.go, in source order.  The Go
code stores it in a map and ranges over it, so no iteration order is
guaranteed; functions below therefore take the entry order as a parameter,
and this list records the entries themselves. -/
def mathSymbols : List (String × String) :=
  [("\\alpha", "α"), ("\\beta", "β"), ("\\gamma", "γ"), ("\\delta", "δ"),
   ("\\epsilon", "ε"), ("\\theta", "θ"), ("\\lambda", "λ"), ("\\mu", "μ"),
   ("\\pi", "π"), ("\\sigma", "σ"), ("\\phi", "φ"), ("\\omega", "ω"),
   ("\\int", "∫"), ("\\sum", "∑"), ("\\prod", "∏"), ("\\sqrt", "√"),
   ("\\infty", "∞"), ("\\partial", "∂"), ("\\nabla", "∇"), ("\\pm", "±"),
   ("\\times", "×"), ("\\div", "÷"), ("\\le", "≤"), ("\\ge", "≥"),
   ("\\ne", "≠"), ("\\approx", "≈"), ("\\subset", "⊂"), ("\\supset", "⊃"),
   ("\\in", "∈"), ("\\notin", "∉"), ("\\cup", "∪"), ("\\cap", "∩"),
   ("\\forall", "∀"), ("\\exists", "∃")]

/-- The macro-substitution pass of renderLaTeX in main.go: one ReplaceAll
per table entry, applied in the given iteration order. -/
def applyMacros (entries : List (String × String)) (content : List Char) : List Char :=
  entries.foldl (fun acc e => replaceAll e.1.toList e.2.toList acc) content

/-- The macro table with the entry for the short set-membership macro moved
to the front: one of the iteration orders Go's unordered map range may
produce. -/
def inFirstOrder : List (String × String) :=
  ("\\in", "∈") :: mathSymbols.eraseP (fun e => decide (e.1 = "\\in"))

/-- Subscript table of handleScripts in main.go, in source order. -/
def subscripts : List (String × String) :=
  [("_0", "₀"), ("_1", "₁"), ("_2", "₂"), ("_3", "₃"), ("_4", "₄"),
   ("_5", "₅"), ("_6", "₆"), ("_7", "₇"), ("_8", "₈"), ("_9", "₉"),
   ("_a", "ₐ"), ("_e", "ₑ"), ("_i", "ᵢ"), ("_o", "ₒ"), ("_u", "ᵤ"),
   ("_x", "ₓ"), ("_y", "ᵧ")]

/-- Superscript table of handleScripts in main.go, in source order. -/
def superscripts : List (String × String) :=
  [("^0", "⁰"), ("^1", "¹"), ("^2", "²"), ("^3", "³"), ("^4", "⁴"),
   ("^5", "⁵"), ("^6", "⁶"), ("^7", "⁷"), ("^8", "⁸"), ("^9", "⁹"),
   ("^n", "ⁿ")]

/-- Mirrors handleScripts of main.go.  Go ranges over the two maps in
unspecified order; the two-character patterns are pairwise non-overlapping
and no replacement glyph contains an underscore, caret, digit or the
enumerated letters, so every iteration order produces the same text; the
source order is fixed here. -/
def handleScripts (content : List Char) : List Char :=
  superscripts.foldl (fun acc e => replaceAll e.1.toList e.2.toList acc)
    (subscripts.foldl (fun acc e => replaceAll e.1.toList e.2.toList acc) content)

/-- The rune loop of handleFormatting in main.go.  braceCount is the Go int
counter; prev is the previously scanned rune (none at the first rune, so
prev.isSome models the Go test of a positive byte index, and the Go check
that the previous byte is an asterisk holds exactly when the previous rune
is an asterisk, since the final byte of a multi-byte rune is never 0x2A). -/
def formatLoop : List Char → Int → Option Char → List Char
  | [], _, _ => []
  | c :: rest, braceCount, prev =>
    if c = '\x7b' ∧ prev.isSome = true then
      c :: formatLoop rest (braceCount + 1) (some c)
    else if c = '\x7d' ∧ braceCount > 0 then
      if braceCount - 1 = 0 then
        (if prev = some '*' then ['*', '*'] else ['*']) ++ formatLoop rest (braceCount - 1) (some c)
      else
        c :: formatLoop rest (braceCount - 1) (some c)
    else
      c :: formatLoop rest braceCount (some c)

/-- Mirrors handleFormatting of main.go: three ReplaceAll passes for the
bold/italic/emphasis openers, then the brace-depth rune loop. -/
def handleFormatting (content : List Char) : List Char :=
  formatLoop
    (replaceAll ("\\emph\x7b".toList) ("*".toList)
      (replaceAll ("\\textit\x7b".toList) ("*".toList)
        (replaceAll ("\\textbf\x7b".toList) ("**".toList) content))) 0 none

/-- Mirrors Go strings.Split(content, "\n"): the empty string gives one
empty line. -/
def splitLines : List Char → List (List Char)
  | [] => [[]]
  | c :: rest =>
    if c = '\n' then
      [] :: splitLines rest
    else
      match splitLines rest with
      | [] => [[c]]
      | l :: ls => (c :: l) :: ls

/-- Byte length of a string, as Go len() computes it (UTF-8). -/
def utf8Len (cs : List Char) : Nat :=
  (cs.map Char.utf8Size).sum

/-- Net brace contribution of one character: +1 for an opening brace, -1
for a closing brace, 0 otherwise. -/
def braceDelta (c : Char) : Int :=
  if c = '\x7b' then 1 else if c = '\x7d' then -1 else 0

/-- Brace balance of a whole string: openers minus closers. -/
def braceSum (line : List Char) : Int :=
  (line.map braceDelta).sum

/-- The per-line brace loop of validateSyntax in main.go: scans the line
with a running balance (Go int) and byte offset, emitting an unmatched
closing brace diagnostic whenever a closer takes the balance below zero,
and returning the final balance. -/
def braceLoop (lineNum : Nat) : List Char → Int → Nat → List Diagnostic × Int
  | [], bal, _ => ([], bal)
  | c :: rest, bal, ofs =>
    if c = '\x7b' then
      braceLoop lineNum rest (bal + 1) (ofs + c.utf8Size)
    else if c = '\x7d' then
      if bal - 1 < 0 then
        (⟨(lineNum : Int) + 1, (ofs : Int) + 1, "Unmatched closing brace", "error"⟩
           :: (braceLoop lineNum rest (bal - 1) (ofs + c.utf8Size)).1,
         (braceLoop lineNum rest (bal - 1) (ofs + c.utf8Size)).2)
      else
        braceLoop lineNum rest (bal - 1) (ofs + c.utf8Size)
    else
      braceLoop lineNum rest bal (ofs + c.utf8Size)

/-- Byte index of the last math delimiter on the line, -1 when absent;
mirrors Go strings.LastIndex(line, "$"). -/
def lastIndexDollarAux : List Char → Nat → Int → Int
  | [], _, acc => acc
  | c :: rest, ofs, acc =>
    lastIndexDollarAux rest (ofs + c.utf8Size) (if c = '$' then (ofs : Int) else acc)

/-- Byte index of the last math delimiter, -1 when absent. -/
def lastIndexDollar (line : List Char) : Int :=
  lastIndexDollarAux line 0 (-1)

/-- Diagnostics of one line, in the order the Go loop appends them: the
closing-brace diagnostics in scan order, then one unmatched opening brace
diagnostic if the final balance is positive (at the line's byte length),
then one unmatched math delimiter diagnostic if the line holds an odd
number of dollar characters (just after the last one). -/
def lineDiags (lineNum : Nat) (line : List Char) : List Diagnostic :=
  (braceLoop lineNum line 0 0).1
    ++ (if (braceLoop lineNum line 0 0).2 > 0 then
          [⟨(lineNum : Int) + 1, (utf8Len line : Int), "Unmatched opening brace", "error"⟩]
        else [])
    ++ (if line.count '$' % 2 ≠ 0 then
          [⟨(lineNum : Int) + 1, lastIndexDollar line + 1, "Unmatched math delimiter", "error"⟩]
        else [])

/-- Mirrors validateSyntax of main.go: split into lines, emit each line's
diagnostics in order. -/
def validateSyntax (content : List Char) : List Diagnostic :=
  ((splitLines content).enum.map (fun p => lineDiags p.1 p.2)).flatten

/-- Specification-side description of the closing-brace columns of a line:
one entry per position whose character is a closing brace and whose
whole-prefix brace balance is negative, carrying the Go column (byte offset
of the brace, plus one). -/
def closingColumns (line : List Char) : List Int :=
  (List.range line.length).filterMap (fun i =>
    if line.get? i = some '\x7d' ∧ braceSum (line.take (i + 1)) < 0 then
      some ((utf8Len (line.take i) : Int) + 1)
    else none)

/-- Generalisation of closingColumns to a suffix scanned from an initial
balance and byte offset; used to relate the scan of braceLoop to the
prefix-sum description. -/
def closingColsFrom (bal : Int) (ofs : Nat) (s : List Char) : List Int :=
  (List.range s.length).filterMap (fun i =>
    if s.get? i = some '\x7d' ∧ bal + braceSum (s.take (i + 1)) < 0 then
      some ((ofs : Int) + (utf8Len (s.take i) : Int) + 1)
    else none)

/-- The pure render pipeline of renderLaTeX in main.go (macro substitution
in the given entry order, then script translation, then inline
formatting). -/
def renderPure (entries : List (String × String)) (content : List Char) : List Char :=
  handleFormatting (handleScripts (applyMacros entries content))

/-- Value stored in the cache under a key, without promotion: the first
entry with the key, as the Go map lookup finds it. -/
def lruLookup {K V : Type} [DecidableEq K] (k : K) (c : LRUCache K V) : Option V :=
  (c.order.find? (fun e => decide (e.1 = k))).map (fun e => e.2)

/-- Mirrors renderLaTeX of main.go.  The cache key is the raw content
concatenated with the decimal Unix time of the current minute bucket; both
the bucket and the wall clock are parameters, and the map iteration order
of the macro table is the entries parameter.  A hit returns the cached
block (promoting it); a miss renders, validates the original content, and
stores the result. -/
def renderLaTeX (entries : List (String × String)) (bucket : Int) (now : Nat)
    (content : List Char) (cache : LRUCache (List Char) RenderedBlock) :
    RenderedBlock × LRUCache (List Char) RenderedBlock :=
  match cache.Get (content ++ (toString bucket).toList) with
  | (some cached, cache1) => (cached, cache1)
  | (none, cache1) =>
    (⟨renderPure entries content, validateSyntax content, now⟩,
     cache1.Put (content ++ (toString bucket).toList)
       ⟨renderPure entries content, validateSyntax content, now⟩)

/-- Completion candidate record, mirroring Completion of main.go. -/
structure Completion where
  Label : String
  Detail : String
  InsertText : String
  Kind : String
  Example : String
  deriving DecidableEq, Repr

/-- The alpha entry of the completion registry of newLSPModel in main.go. -/
def complAlpha : Completion :=
  ⟨"\\alpha", "Greek letter alpha", "\\alpha", "symbol", "\\alpha + \\beta = \\gamma"⟩

/-- The completion registry of newLSPModel in main.go, in source order.  Go
keeps it in a map and ranges over it, so no iteration order is guaranteed;
this list records the entries in source order. -/
def symbols : List (String × Completion) :=
  [("\\alpha", complAlpha),
   ("\\beta", ⟨"\\beta", "Greek letter beta", "\\beta", "symbol", "\\beta^2 = 4"⟩),
   ("\\frac", ⟨"\\frac", "Fraction", "\\frac\x7bnumerator\x7d\x7bdenominator\x7d",
      "function", "\\frac\x7b1\x7d\x7b2\x7d + \\frac\x7b3\x7d\x7b4\x7d"⟩),
   ("\\textbf", ⟨"\\textbf", "Bold text", "\\textbf\x7btext\x7d", "format",
      "\\textbf\x7bImportant note\x7d"⟩),
   ("\\href", ⟨"\\href", "Hyperlink", "\\href\x7burl\x7d\x7btext\x7d", "link",
      "\\href\x7bhttps://example.com\x7d\x7bExample\x7d"⟩),
   ("\\url", ⟨"\\url", "URL link", "\\url\x7burl\x7d", "link",
      "\\url\x7bhttps://example.com\x7d"⟩)]

/-- White space as Go unicode.IsSpace reports it, restricted to the Latin-1
range (wider Unicode space classes are not used by any input considered
here). -/
def isSpaceGo (c : Char) : Bool :=
  c = ' ' ∨ c = '\t' ∨ c = '\n' ∨ c = '\x0b' ∨ c = '\x0c' ∨ c = '\r'
    ∨ c = '\x85' ∨ c = '\xa0'

/-- Accumulator pass splitting a string into maximal runs of non-space
characters. -/
def fieldsAux : List Char → List Char → List (List Char)
  | [], acc => if acc = [] then [] else [acc.reverse]
  | c :: rest, acc =>
    if isSpaceGo c then
      if acc = [] then fieldsAux rest [] else acc.reverse :: fieldsAux rest []
    else
      fieldsAux rest (c :: acc)

/-- Mirrors Go strings.Fields. -/
def fields (s : List Char) : List (List Char) :=
  fieldsAux s []

/-- Tail of getCompletions in main.go: the early return when the kept word
is empty or has no escape character, else the registry scan.  The Go code
ranges over the registry map in unspecified order; the registry's source
order is used here. -/
def currentWordCompletions (currentWord : List Char) : List Completion :=
  if currentWord = [] ∨ ("\\".toList).isPrefixOf currentWord = false then []
  else
    symbols.filterMap (fun e =>
      if currentWord.isPrefixOf e.1.toList = true then some e.2 else none)

/-- Mirrors getCompletions of main.go: scan all whitespace-delimited words
keeping the last one that begins with a backslash, then return every
registry entry that the kept word is a prefix of. -/
def getCompletions (content : List Char) : List Completion :=
  if (fields content).isEmpty = true then []
  else
    currentWordCompletions
      ((fields content).foldl
        (fun acc w => if ("\\".toList).isPrefixOf w = true then w else acc) [])

/-- Specification-side reading of the completion trigger: the last
whitespace-delimited word that begins with a backslash, if any. -/
def lastBackslashWord (content : List Char) : Option (List Char) :=
  ((fields content).filter (fun w => ("\\".toList).isPrefixOf w)).getLast?

/-- Block type tag, mirroring blockType of main.go. -/
inductive blockType where
  | text
  | math
  | heading
  | code
  | quote
  | list
  | rawlatex
  deriving DecidableEq, Repr

/-- Content block, mirroring ContentBlock of main.go (the Go field Type is
called Typ here because Type is reserved in Lean). -/
structure ContentBlock where
  ID : String
  Typ : blockType
  Content : List Char
  Rendered : List Char := []
  Numbered : Bool := false
  Language : String := ""
  Level : Int := 0
  deriving DecidableEq, Repr

/-- The document-editing state of documentModel in main.go that the block
operations read and write; the embedded textarea editor and vim state are
external presentation concerns and are not modelled. -/
structure documentModel where
  blocks : List ContentBlock
  currentBlock : Nat
  filepath : String
  modified : Bool
  needsRefresh : Bool
  deriving DecidableEq, Repr

/-- Mirrors case "n" of updateEdit in main.go: the new block's id is the
decimal of (current number of blocks) + 1, its type is text, its content
empty; it is appended and becomes current. -/
def createBlock (d : documentModel) : documentModel :=
  let newBlock : ContentBlock :=
    { ID := toString (d.blocks.length + 1), Typ := blockType.text, Content := [] }
  { d with
    blocks := d.blocks ++ [newBlock],
    currentBlock := (d.blocks ++ [newBlock]).length - 1,
    modified := true,
    needsRefresh := true }

/-- Mirrors case "d" of updateEdit in main.go: delete the current block
only when more than one block exists and the index is in range, then clamp
the current index; otherwise do nothing. -/
def deleteBlock (d : documentModel) : documentModel :=
  if 1 < d.blocks.length ∧ d.currentBlock < d.blocks.length then
    { d with
      blocks := d.blocks.take d.currentBlock ++ d.blocks.drop (d.currentBlock + 1),
      currentBlock :=
        if (d.blocks.take d.currentBlock ++ d.blocks.drop (d.currentBlock + 1)).length
            ≤ d.currentBlock then
          (d.blocks.take d.currentBlock ++ d.blocks.drop (d.currentBlock + 1)).length - 1
        else d.currentBlock,
      modified := true,
      needsRefresh := true }
  else d

/-- The two-block document used to exhibit the id collision of claim C2:
ids 1 and 2, current index 0. -/
def c2FailDoc : documentModel :=
  ⟨[{ ID := "1", Typ := blockType.text, Content := [] },
    { ID := "2", Typ := blockType.text, Content := [] }], 0, "", false, false⟩

/-- A one-block document, for the sole-block deletion witness. -/
def c8SoleDoc : documentModel :=
  ⟨[{ ID := "1", Typ := blockType.text, Content := ("hello".toList) }], 0, "f.oath", false, false⟩

/-- Mode tag of main.go's model. -/
inductive editorMode where
  | browser
  | menu
  | edit
  | timer
  | export
  deriving DecidableEq, Repr

/-- Browser state: only the error message field matters to the claims. -/
structure browserModel where
  errorMsg : String
  deriving DecidableEq, Repr

/-- Persisted document, mirroring OathDocument of main.go (the variable map
and timestamps carry no invariant and are omitted). -/
structure OathDocument where
  Version : String
  Template : String
  Content : List ContentBlock
  deriving DecidableEq, Repr

/-- The slice of main.go's top-level model that loadDocument reads and
writes. -/
structure appModel where
  mode : editorMode
  browser : browserModel
  document : documentModel
  deriving DecidableEq, Repr

/-- Mirrors loadDocument of main.go.  Reading the file and JSON
unmarshalling are external calls; their outcomes are the readResult and
parseResult parameters.  A read failure or a parse failure only sets the
browser error message; success installs the parsed blocks, resets the
current index and modified flag, records the path and switches to edit
mode. -/
def loadDocument (readResult : Except String (List Char))
    (parseResult : List Char → Except String OathDocument)
    (fp : String) (m : appModel) : appModel :=
  match readResult with
  | Except.error e =>
    { m with browser := { m.browser with errorMsg := "Error loading file: " ++ e } }
  | Except.ok data =>
    match parseResult data with
    | Except.error e =>
      { m with browser := { m.browser with errorMsg := "Error parsing file: " ++ e } }
    | Except.ok doc =>
      { m with
        mode := editorMode.edit,
        document := { m.document with
          blocks := doc.Content,
          filepath := fp,
          modified := false,
          currentBlock := 0,
          needsRefresh := true } }

/-- A concrete application state for the load-failure witness. -/
def c9Model : appModel :=
  ⟨editorMode.browser, ⟨""⟩,
   ⟨[{ ID := "1", Typ := blockType.text, Content := ("x".toList) }], 0, "old.oath", true, false⟩⟩

/-- Mirrors generateUnicode of main.go: code blocks become fenced blocks,
quote blocks become quoted-line prefixes, every other block type is passed
through renderLaTeX; the render cache threads through the blocks in
order. -/
def generateUnicode (entries : List (String × String)) (bucket : Int) (now : Nat)
    (blocks : List ContentBlock) (cache : LRUCache (List Char) RenderedBlock) :
    List Char × LRUCache (List Char) RenderedBlock :=
  match blocks with
  | [] => ([], cache)
  | b :: rest =>
    match b.Typ with
    | blockType.code =>
      let res := generateUnicode entries bucket now rest cache
      ("```".toList ++ b.Language.toList ++ "\n".toList ++ b.Content ++ "\n```\n\n".toList
         ++ res.1, res.2)
    | blockType.quote =>
      let res := generateUnicode entries bucket now rest cache
      (((splitLines b.Content).map (fun l => "> ".toList ++ l ++ "\n".toList)).flatten
         ++ "\n".toList ++ res.1, res.2)
    | _ =>
      let r := renderLaTeX entries bucket now b.Content cache
      let res := generateUnicode entries bucket now rest r.2
      (r.1.Unicode ++ "\n\n".toList ++ res.1, res.2)

/-- The three-block document of claim C6: a heading, a math block, a text
block. -/
def c6Doc : List ContentBlock :=
  [{ ID := "1", Typ := blockType.heading, Content := ("# Title".toList) },
   { ID := "2", Typ := blockType.math, Content := ("$x^2$".toList) },
   { ID := "3", Typ := blockType.text, Content := ("plain".toList) }]
theorem get_capacity {K V : Type} [DecidableEq K] (c : LRUCache K V) (k : K) :
    ((c.Get k).2).capacity = c.capacity := by
  unfold LRUCache.Get
  split <;> rfl

theorem get_length {K V : Type} [DecidableEq K] (c : LRUCache K V) (k : K) :
    ((c.Get k).2).order.length = c.order.length := by
  unfold LRUCache.Get
  split
  case _ e hf =>
    have he := List.mem_of_find?_eq_some hf
    have hp := List.find?_some hf
    have hpos : 0 < c.order.length := List.length_pos_of_mem he
    simp only [List.length_cons,
      List.length_eraseP_of_mem (p := fun x => decide (x.1 = k)) he hp]
    omega
  case _ => rfl

theorem put_capacity {K V : Type} [DecidableEq K] (c : LRUCache K V) (k : K) (v : V) :
    (c.Put k v).capacity = c.capacity := by
  unfold LRUCache.Put
  split
  · rfl
  · split <;> rfl

theorem put_length_le {K V : Type} [DecidableEq K] (c : LRUCache K V) (k : K) (v : V)
    (hcap : 1 ≤ c.capacity) (hlen : c.order.length ≤ c.capacity) :
    (c.Put k v).order.length ≤ c.capacity := by
  unfold LRUCache.Put
  split
  case _ e hf =>
    have he := List.mem_of_find?_eq_some hf
    have hp := List.find?_some hf
    have hpos : 0 < c.order.length := List.length_pos_of_mem he
    simp only [List.length_cons,
      List.length_eraseP_of_mem (p := fun x => decide (x.1 = k)) he hp]
    omega
  case _ =>
    by_cases h : c.capacity ≤ c.order.length
    · simp only [if_pos h, List.length_cons, List.length_dropLast]
      omega
    · simp only [if_neg h, List.length_cons]
      omega

theorem applyOp_capacity {K V : Type} [DecidableEq K] (c : LRUCache K V) (op : CacheOp K V) :
    (applyOp c op).capacity = c.capacity := by
  cases op with
  | get k => exact get_capacity c k
  | put k v => exact put_capacity c k v

theorem applyOp_length_le {K V : Type} [DecidableEq K] (c : LRUCache K V) (op : CacheOp K V)
    (hcap : 1 ≤ c.capacity) (hlen : c.order.length ≤ c.capacity) :
    (applyOp c op).order.length ≤ c.capacity := by
  cases op with
  | get k =>
    show ((c.Get k).2).order.length ≤ c.capacity
    rw [get_length]
    exact hlen
  | put k v => exact put_length_le c k v hcap hlen

theorem runOps_inv {K V : Type} [DecidableEq K] :
    ∀ (ops : List (CacheOp K V)) (c : LRUCache K V), 1 ≤ c.capacity →
      c.order.length ≤ c.capacity →
      (runOps c ops).order.length ≤ c.capacity ∧ (runOps c ops).capacity = c.capacity := by
  intro ops
  induction ops with
  | nil => intro c _ hlen; exact ⟨hlen, rfl⟩
  | cons op ops ih =>
    intro c hcap hlen
    have hstep := ih (applyOp c op)
    rw [applyOp_capacity] at hstep
    have h := hstep hcap (applyOp_length_le c op hcap hlen)
    exact ⟨h.1, h.2⟩

theorem find?_key_nodup {K V : Type} [DecidableEq K] :
    ∀ (l : List (K × V)) (k : K) (v : V), (l.map Prod.fst).Nodup → (k, v) ∈ l →
      l.find? (fun e => decide (e.1 = k)) = some (k, v) := by
  intro l
  induction l with
  | nil => intro k v _ hmem; simp at hmem
  | cons e rest ih =>
    intro k v hnd hmem
    by_cases hek : e.1 = k
    · have hev : e = (k, v) := by
        rcases List.mem_cons.mp hmem with h | h
        · exact h.symm
        · exfalso
          have hmk : k ∈ rest.map Prod.fst := List.mem_map_of_mem Prod.fst h
          have : e.1 ∉ rest.map Prod.fst := (List.nodup_cons.mp (by simpa using hnd)).1
          rw [hek] at this
          exact this hmk
      rw [List.find?_cons, hev]
      simp
    · rw [List.find?_cons]
      have hne : decide (e.1 = k) = false := by simp [hek]
      rw [hne]
      have hrest : (k, v) ∈ rest := by
        rcases List.mem_cons.mp hmem with h | h
        · exact absurd (congrArg Prod.fst h.symm) hek
        · exact h
      exact ih k v (List.nodup_cons.mp (by simpa using hnd)).2 hrest

theorem cons_eraseP_perm {K V : Type} [DecidableEq K] :
    ∀ (l : List (K × V)) (p : K × V → Bool) (a : K × V), l.find? p = some a →
      (a :: l.eraseP p).Perm l := by
  intro l
  induction l with
  | nil => intro p a h; simp at h
  | cons b rest ih =>
    intro p a h
    by_cases hp : p b = true
    · rw [List.find?_cons_of_pos _ hp] at h
      rw [List.eraseP_cons_of_pos hp]
      rw [Option.some.injEq] at h
      rw [h]
    · rw [List.find?_cons_of_neg _ hp] at h
      rw [List.eraseP_cons_of_neg hp]
      exact (List.Perm.swap b a _).trans ((ih p a h).cons b)

theorem put_keys_miss {K V : Type} [DecidableEq K] (c : LRUCache K V) (k : K) (v : V)
    (hmiss : ∀ e ∈ c.order, e.1 ≠ k) (hlen : c.order.length ≤ c.capacity)
    (hcap : 1 ≤ c.capacity) :
    (c.Put k v).order.map Prod.fst = (k :: c.order.map Prod.fst).take c.capacity := by
  have hf : c.order.find? (fun e => decide (e.1 = k)) = none := by
    rw [List.find?_eq_none]
    intro x hx
    simpa using hmiss x hx
  unfold LRUCache.Put
  rw [hf]
  by_cases h : c.capacity ≤ c.order.length
  · have heq : c.order.length = c.capacity := le_antisymm hlen h
    simp only [if_pos h, List.map_cons]
    obtain ⟨m, hm⟩ : ∃ m, c.capacity = m + 1 := ⟨c.capacity - 1, by omega⟩
    rw [hm, List.take_succ_cons, List.map_dropLast, List.dropLast_eq_take]
    have hlm : (List.map Prod.fst c.order).length - 1 = m := by
      rw [List.length_map]
      omega
    rw [hlm]
  · simp only [if_neg h, List.map_cons]
    rw [List.take_of_length_le]
    simp only [List.length_cons, List.length_map]
    omega

theorem take_append_take {α : Type} (n : Nat) (xs ys : List α) :
    (xs ++ ys.take n).take n = (xs ++ ys).take n := by
  rw [List.take_append_eq_append_take, List.take_append_eq_append_take, List.take_take]
  congr 1
  rw [Nat.min_eq_left (Nat.sub_le n xs.length)]

theorem runOps_putAll_keys {K V : Type} [DecidableEq K] (v : V) :
    ∀ (ks : List K) (c : LRUCache K V), ks.Nodup →
      (∀ k ∈ ks, ∀ e ∈ c.order, e.1 ≠ k) →
      1 ≤ c.capacity → c.order.length ≤ c.capacity →
      (runOps c (putOps v ks)).order.map Prod.fst
        = (ks.reverse ++ c.order.map Prod.fst).take c.capacity := by
  intro ks
  induction ks with
  | nil =>
    intro c _ _ _ hlen
    simp only [putOps, List.map_nil, runOps, List.foldl_nil, List.reverse_nil,
      List.nil_append]
    rw [List.take_of_length_le]
    rw [List.length_map]
    exact hlen
  | cons k ks ih =>
    intro c hnd hdis hcap hlen
    have hmiss : ∀ e ∈ c.order, e.1 ≠ k := fun e he => hdis k (by simp) e he
    have hkeys := put_keys_miss c k v hmiss hlen hcap
    have hcapp : (c.Put k v).capacity = c.capacity := put_capacity c k v
    have hlen1 : (c.Put k v).order.length ≤ (c.Put k v).capacity := by
      rw [hcapp]
      have : (c.Put k v).order.length = ((c.Put k v).order.map Prod.fst).length :=
        (List.length_map _ _).symm
      rw [this, hkeys, List.length_take]
      omega
    have hcap1 : 1 ≤ (c.Put k v).capacity := by rw [hcapp]; exact hcap
    have hdis1 : ∀ k2 ∈ ks, ∀ e ∈ (c.Put k v).order, e.1 ≠ k2 := by
      intro k2 hk2 e he
      have hin : e.1 ∈ (c.Put k v).order.map Prod.fst := List.mem_map_of_mem Prod.fst he
      rw [hkeys] at hin
      have hin2 : e.1 ∈ k :: c.order.map Prod.fst := List.take_subset _ _ hin
      rcases List.mem_cons.mp hin2 with h | h
      · rw [h]
        intro hkk
        have : k ∉ ks := (List.nodup_cons.mp hnd).1
        exact this (hkk ▸ hk2)
      · obtain ⟨e2, he2, hfst⟩ := List.mem_map.mp h
        rw [← hfst]
        exact hdis k2 (List.mem_cons_of_mem k hk2) e2 he2
    have ihh := ih (c.Put k v) (List.nodup_cons.mp hnd).2 hdis1 hcap1 hlen1
    have hrun : runOps c (putOps v (k :: ks)) = runOps (c.Put k v) (putOps v ks) := rfl
    rw [hrun, ihh, hcapp, hkeys]
    have hrev : (k :: ks).reverse ++ c.order.map Prod.fst
        = ks.reverse ++ (k :: c.order.map Prod.fst) := by
      simp
    rw [hrev]
    exact take_append_take c.capacity ks.reverse (k :: c.order.map Prod.fst)

theorem put_full_evicts {K V : Type} [DecidableEq K] (c : LRUCache K V) (k : K) (v : V)
    (hmiss : ∀ e ∈ c.order, e.1 ≠ k) (hfull : c.capacity ≤ c.order.length) :
    (c.Put k v).order = (k, v) :: c.order.dropLast := by
  have hf : c.order.find? (fun e => decide (e.1 = k)) = none := by
    rw [List.find?_eq_none]
    intro x hx
    simpa using hmiss x hx
  unfold LRUCache.Put
  rw [hf, if_pos hfull]

/-- C3: the render cache is a strict LRU.  Starting from a fresh cache of
capacity cap ≥ 1, no sequence of Get and Put operations makes it hold more
than cap entries; a Get hit returns the stored value and promotes its entry
to most-recently-used while keeping the same entries up to order; a Put of a
new key when the cache is full evicts the least-recently-used (back) entry
first; and after Put-inserting K > cap distinct keys the cache holds exactly
cap entries, namely the cap most-recently-used keys in most-recent-first
order. -/
theorem lruCache_strict_lru {K V : Type} [DecidableEq K] (cap : Nat) (hcap : 1 ≤ cap) :
    (∀ ops : List (CacheOp K V), (runOps (newLRUCache K V cap) ops).order.length ≤ cap)
    ∧ (∀ (c : LRUCache K V) (k : K) (v : V), (c.order.map Prod.fst).Nodup →
        (k, v) ∈ c.order →
        (c.Get k).1 = some v ∧ (c.Get k).2.order.head? = some (k, v)
          ∧ (c.Get k).2.order.Perm c.order)
    ∧ (∀ (c : LRUCache K V) (k : K) (v : V), c.order.length = c.capacity →
        (∀ e ∈ c.order, e.1 ≠ k) → (c.Put k v).order = (k, v) :: c.order.dropLast)
    ∧ (∀ (ks : List K) (v : V), ks.Nodup → cap < ks.length →
        (runOps (newLRUCache K V cap) (putOps v ks)).order.map Prod.fst
          = ks.reverse.take cap
        ∧ (runOps (newLRUCache K V cap) (putOps v ks)).order.length = cap) := by
  refine ⟨?_, ?_, ?_, ?_⟩
  · intro ops
    have h := runOps_inv (K := K) (V := V) ops (newLRUCache K V cap) hcap (by simp [newLRUCache])
    exact h.1
  · intro c k v hnd hmem
    have hfind := find?_key_nodup c.order k v hnd hmem
    have hGet : c.Get k
        = (some v, ⟨c.capacity, (k, v) :: c.order.eraseP (fun x => decide (x.1 = k))⟩) := by
      unfold LRUCache.Get
      rw [hfind]
    refine ⟨?_, ?_, ?_⟩
    · rw [hGet]
    · rw [hGet]
      rfl
    · rw [hGet]
      exact cons_eraseP_perm c.order _ (k, v) hfind
  · intro c k v hfull hmiss
    exact put_full_evicts c k v hmiss (le_of_eq hfull.symm)
  · intro ks v hnd hlt
    have h := runOps_putAll_keys v ks (newLRUCache K V cap) hnd
      (by intro k _ e he; simp [newLRUCache] at he) hcap (by simp [newLRUCache])
    have hnil : (newLRUCache K V cap).order.map Prod.fst = [] := rfl
    have hc : (newLRUCache K V cap).capacity = cap := rfl
    rw [hnil, List.append_nil, hc] at h
    refine ⟨h, ?_⟩
    have hl : (runOps (newLRUCache K V cap) (putOps v ks)).order.length
        = ((runOps (newLRUCache K V cap) (putOps v ks)).order.map Prod.fst).length :=
      (List.length_map _ _).symm
    rw [hl, h, List.length_take, List.length_reverse]
    omega

/-- Witness for C3: capacity 2, inserting the three distinct keys a, b, c
leaves exactly the keys c, b in most-recent-first order. -/
theorem lruCache_strict_lru_witness :
    (runOps (newLRUCache String Nat 2) (putOps 0 ["a", "b", "c"])).order.map Prod.fst
      = (["a", "b", "c"] : List String).reverse.take 2
    ∧ (runOps (newLRUCache String Nat 2) (putOps 0 ["a", "b", "c"])).order.length = 2 := by
  have h := lruCache_strict_lru (K := String) (V := Nat) 2 (by decide)
  exact h.2.2.2 ["a", "b", "c"] 0 (by decide) (by decide)

theorem braceLoop_fields (lineNum : Nat) :
    ∀ (line : List Char) (bal : Int) (ofs : Nat) (d : Diagnostic),
      d ∈ (braceLoop lineNum line bal ofs).1 →
      d.Line = (lineNum : Int) + 1 ∧ d.Message = "Unmatched closing brace"
        ∧ d.Severity = "error" := by
  intro line
  induction line with
  | nil => intro bal ofs d hd; simp [braceLoop] at hd
  | cons c rest ih =>
    intro bal ofs d hd
    simp only [braceLoop] at hd
    split_ifs at hd
    · exact ih _ _ d hd
    · simp only [List.mem_cons] at hd
      rcases hd with rfl | hd
      · exact ⟨rfl, rfl, rfl⟩
      · exact ih _ _ d hd
    · exact ih _ _ d hd
    · exact ih _ _ d hd

theorem lineDiags_fields (n : Nat) (line : List Char) (d : Diagnostic)
    (hd : d ∈ lineDiags n line) :
    d.Line = (n : Int) + 1 ∧ d.Severity = "error" := by
  simp only [lineDiags, List.mem_append] at hd
  rcases hd with (hd | hd) | hd
  · have h := braceLoop_fields n line 0 0 d hd
    exact ⟨h.1, h.2.2⟩
  · split_ifs at hd
    · simp only [List.mem_singleton] at hd
      subst hd
      exact ⟨rfl, rfl⟩
    · simp at hd
  · split_ifs at hd
    · simp only [List.mem_singleton] at hd
      subst hd
      exact ⟨rfl, rfl⟩
    · simp at hd

theorem validateSyntax_mem (content : List Char) (d : Diagnostic)
    (hd : d ∈ validateSyntax content) :
    ∃ p ∈ (splitLines content).enum, d ∈ lineDiags p.1 p.2 := by
  simp only [validateSyntax, List.mem_flatten, List.mem_map] at hd
  obtain ⟨l, ⟨p, hp, hl⟩, hdl⟩ := hd
  exact ⟨p, hp, by rw [hl]; exact hdl⟩

/-- C10: every diagnostic produced by the validation pass has severity
error; none has severity warning, although the Diagnostic record admits
both. -/
theorem validateSyntax_only_errors (content : List Char) (d : Diagnostic)
    (hd : d ∈ validateSyntax content) :
    d.Severity = "error" ∧ d.Severity ≠ "warning" := by
  obtain ⟨p, _, hdl⟩ := validateSyntax_mem content d hd
  have h := (lineDiags_fields p.1 p.2 d hdl).2
  refine ⟨h, ?_⟩
  rw [h]
  decide

/-- Witness for C10: the diagnostic of an unmatched closing brace has
severity error and not warning. -/
theorem validateSyntax_only_errors_witness :
    (⟨1, 6, "Unmatched closing brace", "error"⟩ : Diagnostic)
        ∈ validateSyntax ("extra\x7d".toList)
    ∧ (⟨1, 6, "Unmatched closing brace", "error"⟩ : Diagnostic).Severity = "error"
    ∧ (⟨1, 6, "Unmatched closing brace", "error"⟩ : Diagnostic).Severity ≠ "warning" := by
  have hmem : (⟨1, 6, "Unmatched closing brace", "error"⟩ : Diagnostic)
      ∈ validateSyntax ("extra\x7d".toList) := by decide
  have h := validateSyntax_only_errors ("extra\x7d".toList) _ hmem
  exact ⟨hmem, h.1, h.2⟩

/-- C2 fails on the code (the id scheme is current length + 1): starting
from a document with distinct ids 1 and 2 and current index 0, a delete
followed by a create yields two blocks both with id 2. -/
theorem blockIds_collide_after_delete :
    (c2FailDoc.blocks.map (fun b => b.ID)).Nodup
    ∧ (createBlock (deleteBlock c2FailDoc)).blocks.map (fun b => b.ID) = ["2", "2"]
    ∧ ¬ ((createBlock (deleteBlock c2FailDoc)).blocks.map (fun b => b.ID)).Nodup := by
  decide

/-- C8: deleting the current block of a single-block document is a no-op
returning the state unchanged (the unchanged model is what the caller
receives), and a delete never empties a non-empty document. -/
theorem deleteBlock_sole_is_noop (d : documentModel) :
    (d.blocks.length = 1 → deleteBlock d = d)
    ∧ (1 ≤ d.blocks.length → 1 ≤ (deleteBlock d).blocks.length) := by
  constructor
  · intro h1
    unfold deleteBlock
    rw [if_neg]
    intro hc
    omega
  · intro h1
    unfold deleteBlock
    split
    case _ hc =>
      simp only [List.length_append, List.length_take, List.length_drop]
      omega
    case _ => exact h1

/-- Witness for C8: deleting the sole block of a concrete one-block
document leaves it unchanged and non-empty. -/
theorem deleteBlock_sole_is_noop_witness :
    deleteBlock c8SoleDoc = c8SoleDoc ∧ 1 ≤ (deleteBlock c8SoleDoc).blocks.length := by
  have h := deleteBlock_sole_is_noop c8SoleDoc
  exact ⟨h.1 (by decide), h.2 (by decide)⟩

/-- C9: when reading the file fails or its contents do not parse, loading
leaves the whole in-memory document state (blocks, current index, file
path, modified flag) and the mode unchanged, and reports a descriptive
error message naming the failure. -/
theorem loadDocument_failure_atomic (rr : Except String (List Char))
    (pr : List Char → Except String OathDocument) (fp : String) (m : appModel)
    (hfail : (∃ e, rr = Except.error e)
      ∨ (∃ data e, rr = Except.ok data ∧ pr data = Except.error e)) :
    (loadDocument rr pr fp m).document = m.document
    ∧ (loadDocument rr pr fp m).mode = m.mode
    ∧ (∃ msg, (loadDocument rr pr fp m).browser.errorMsg = "Error loading file: " ++ msg
        ∨ (loadDocument rr pr fp m).browser.errorMsg = "Error parsing file: " ++ msg) := by
  rcases hfail with ⟨e, he⟩ | ⟨data, e, hok, hpe⟩
  · subst he
    exact ⟨rfl, rfl, ⟨e, Or.inl rfl⟩⟩
  · subst hok
    refine ⟨?_, ?_, ⟨e, Or.inr ?_⟩⟩ <;> simp [loadDocument, hpe]

/-- Witness for C9: a concrete unreadable path leaves a concrete model's
document untouched. -/
theorem loadDocument_failure_atomic_witness :
    (loadDocument (Except.error "no such file")
        (fun _ => Except.error "bad json") "f.oath" c9Model).document = c9Model.document
    ∧ (loadDocument (Except.error "no such file")
        (fun _ => Except.error "bad json") "f.oath" c9Model).mode = c9Model.mode
    ∧ (∃ msg, (loadDocument (Except.error "no such file")
          (fun _ => Except.error "bad json") "f.oath" c9Model).browser.errorMsg
            = "Error loading file: " ++ msg
        ∨ (loadDocument (Except.error "no such file")
          (fun _ => Except.error "bad json") "f.oath" c9Model).browser.errorMsg
            = "Error parsing file: " ++ msg) :=
  loadDocument_failure_atomic _ _ _ _ (Or.inl ⟨"no such file", rfl⟩)

/-- C1 fails on the code: the substitution loop ranges over a Go map, whose
iteration order is unspecified, so the order placing the short
set-membership macro first is admissible; under it the integral macro is
corrupted, while the source-listing order happens to render it correctly.
The two admissible orders disagree, so substitution is not
longest-macro-name-first. -/
theorem macroSubst_order_dependent :
    inFirstOrder.Perm mathSymbols
    ∧ applyMacros inFirstOrder ("\\int".toList) = ("∈t".toList)
    ∧ applyMacros mathSymbols ("\\int".toList) = ("∫".toList)
    ∧ applyMacros inFirstOrder ("\\int".toList) ≠ applyMacros mathSymbols ("\\int".toList) := by
  refine ⟨?_, by decide, by decide, by decide⟩
  exact cons_eraseP_perm mathSymbols (fun e => decide (e.1 = "\\in")) ("\\in", "∈") (by decide)

/-- C6 fails on the code: exporting the heading / math / text document to
plain Unicode does produce the superscript two, but the heading keeps its
hash marker and the math block keeps its dollar delimiters, because both go
through renderLaTeX, which strips neither. -/
theorem generateUnicode_keeps_delimiters :
    '²' ∈ (generateUnicode mathSymbols 0 0 c6Doc (newLRUCache (List Char) RenderedBlock 50)).1
    ∧ '$' ∈ (generateUnicode mathSymbols 0 0 c6Doc (newLRUCache (List Char) RenderedBlock 50)).1
    ∧ '#' ∈ (generateUnicode mathSymbols 0 0 c6Doc (newLRUCache (List Char) RenderedBlock 50)).1 := by
  decide

theorem get_fst_eq_lookup {K V : Type} [DecidableEq K] (c : LRUCache K V) (k : K) :
    (c.Get k).1 = lruLookup k c := by
  unfold LRUCache.Get lruLookup
  cases hf : c.order.find? (fun e => decide (e.1 = k)) <;> simp [hf]

theorem get_of_lookup_none {K V : Type} [DecidableEq K] (c : LRUCache K V) (k : K)
    (h : lruLookup k c = none) : c.Get k = (none, c) := by
  unfold lruLookup at h
  rcases hf : c.order.find? (fun e => decide (e.1 = k)) with _ | e
  · unfold LRUCache.Get
    rw [hf]
  · rw [hf] at h
    simp at h

theorem lruLookup_put_self {K V : Type} [DecidableEq K] (c : LRUCache K V) (k : K) (v : V) :
    lruLookup k (c.Put k v) = some v := by
  unfold LRUCache.Put lruLookup
  split
  · rw [List.find?_cons_of_pos _ (by simp)]
    rfl
  · split
    · rw [List.find?_cons_of_pos _ (by simp)]
      rfl
    · rw [List.find?_cons_of_pos _ (by simp)]
      rfl

theorem lruLookup_get_self {K V : Type} [DecidableEq K] (c : LRUCache K V) (k : K) (v : V)
    (h : lruLookup k c = some v) : lruLookup k ((c.Get k).2) = some v := by
  unfold lruLookup at h
  rcases hf : c.order.find? (fun e => decide (e.1 = k)) with _ | e
  · rw [hf] at h
    simp at h
  · rw [hf] at h
    simp only [Option.map_some'] at h
    unfold LRUCache.Get lruLookup
    rw [hf]
    simp only
    rw [List.find?_cons_of_pos _ (List.find?_some hf)]
    simpa using h

theorem renderLaTeX_hit (entries : List (String × String)) (bucket : Int) (now : Nat)
    (content : List Char) (cache : LRUCache (List Char) RenderedBlock) (v : RenderedBlock)
    (h : lruLookup (content ++ (toString bucket).toList) cache = some v) :
    renderLaTeX entries bucket now content cache
      = (v, (cache.Get (content ++ (toString bucket).toList)).2) := by
  rcases hG : cache.Get (content ++ (toString bucket).toList) with ⟨o, c1⟩
  have ho : o = some v := by
    have hfst := get_fst_eq_lookup cache (content ++ (toString bucket).toList)
    rw [hG, h] at hfst
    exact hfst
  subst ho
  unfold renderLaTeX
  rw [hG]

theorem renderLaTeX_miss (entries : List (String × String)) (bucket : Int) (now : Nat)
    (content : List Char) (cache : LRUCache (List Char) RenderedBlock)
    (h : lruLookup (content ++ (toString bucket).toList) cache = none) :
    renderLaTeX entries bucket now content cache
      = (⟨renderPure entries content, validateSyntax content, now⟩,
         cache.Put (content ++ (toString bucket).toList)
           ⟨renderPure entries content, validateSyntax content, now⟩) := by
  unfold renderLaTeX
  rw [get_of_lookup_none cache _ h]

/-- C4: rendering the same raw content twice within one wall-clock time
bucket yields byte-identical Unicode output and identical diagnostics for
the two calls; the second call is a cache hit, and the common value is a
fresh render of the content.  The cache may start in any state whose entry
at this key, if one exists, is itself the render of this content — in
particular any state the renderer built itself, or the empty cache. -/
theorem renderLaTeX_idempotent (entries : List (String × String)) (bucket : Int)
    (now1 now2 : Nat) (content : List Char) (cache : LRUCache (List Char) RenderedBlock)
    (hwf : ∀ v, lruLookup (content ++ (toString bucket).toList) cache = some v →
      v.Unicode = renderPure entries content ∧ v.Errors = validateSyntax content) :
    ((renderLaTeX entries bucket now2 content
        (renderLaTeX entries bucket now1 content cache).2).1).Unicode
      = ((renderLaTeX entries bucket now1 content cache).1).Unicode
    ∧ ((renderLaTeX entries bucket now2 content
        (renderLaTeX entries bucket now1 content cache).2).1).Errors
      = ((renderLaTeX entries bucket now1 content cache).1).Errors
    ∧ ((renderLaTeX entries bucket now1 content cache).1).Unicode = renderPure entries content
    ∧ ((renderLaTeX entries bucket now1 content cache).1).Errors = validateSyntax content
    ∧ (lruLookup (content ++ (toString bucket).toList)
        (renderLaTeX entries bucket now1 content cache).2).isSome = true := by
  rcases hl : lruLookup (content ++ (toString bucket).toList) cache with _ | v
  · have hm := renderLaTeX_miss entries bucket now1 content cache hl
    have hl1 : lruLookup (content ++ (toString bucket).toList)
        (renderLaTeX entries bucket now1 content cache).2
        = some ⟨renderPure entries content, validateSyntax content, now1⟩ := by
      rw [hm]
      exact lruLookup_put_self cache _ _
    have h2 := renderLaTeX_hit entries bucket now2 content _ _ hl1
    refine ⟨?_, ?_, ?_, ?_, ?_⟩
    · rw [h2, hm]
    · rw [h2, hm]
    · rw [hm]
    · rw [hm]
    · rw [hl1]
      rfl
  · have hv := hwf v hl
    have h1 := renderLaTeX_hit entries bucket now1 content cache v hl
    have hl1 : lruLookup (content ++ (toString bucket).toList)
        (renderLaTeX entries bucket now1 content cache).2 = some v := by
      rw [h1]
      exact lruLookup_get_self cache _ v hl
    have h2 := renderLaTeX_hit entries bucket now2 content _ v hl1
    refine ⟨?_, ?_, ?_, ?_, ?_⟩
    · rw [h2, h1]
    · rw [h2, h1]
    · rw [h1]
      exact hv.1
    · rw [h1]
      exact hv.2
    · rw [hl1]
      rfl

/-- Witness for C4: a concrete double render of one content string in
bucket 0 starting from the fresh empty cache of capacity 50. -/
theorem renderLaTeX_idempotent_witness :
    ((renderLaTeX mathSymbols 0 7 ("x^2".toList)
        (renderLaTeX mathSymbols 0 3 ("x^2".toList)
          (newLRUCache (List Char) RenderedBlock 50)).2).1).Unicode
      = ((renderLaTeX mathSymbols 0 3 ("x^2".toList)
          (newLRUCache (List Char) RenderedBlock 50)).1).Unicode
    ∧ ((renderLaTeX mathSymbols 0 7 ("x^2".toList)
        (renderLaTeX mathSymbols 0 3 ("x^2".toList)
          (newLRUCache (List Char) RenderedBlock 50)).2).1).Errors
      = ((renderLaTeX mathSymbols 0 3 ("x^2".toList)
          (newLRUCache (List Char) RenderedBlock 50)).1).Errors
    ∧ ((renderLaTeX mathSymbols 0 3 ("x^2".toList)
        (newLRUCache (List Char) RenderedBlock 50)).1).Unicode
      = renderPure mathSymbols ("x^2".toList)
    ∧ ((renderLaTeX mathSymbols 0 3 ("x^2".toList)
        (newLRUCache (List Char) RenderedBlock 50)).1).Errors
      = validateSyntax ("x^2".toList)
    ∧ (lruLookup (("x^2".toList) ++ (toString (0 : Int)).toList)
        (renderLaTeX mathSymbols 0 3 ("x^2".toList)
          (newLRUCache (List Char) RenderedBlock 50)).2).isSome = true := by
  have h := renderLaTeX_idempotent mathSymbols 0 3 7 ("x^2".toList)
    (newLRUCache (List Char) RenderedBlock 50)
    (by intro v hv; simp [lruLookup, newLRUCache] at hv)
  exact h

theorem mem_of_getLast?_some {α : Type} :
    ∀ (l : List α) (a : α), l.getLast? = some a → a ∈ l := by
  intro l
  induction l with
  | nil => intro a h; simp at h
  | cons b t ih =>
    intro a h
    rw [List.getLast?_cons] at h
    simp only [Option.some.injEq] at h
    cases ht : t.getLast? with
    | none =>
      rw [ht] at h
      simp only [Option.getD_none] at h
      subst h
      exact List.mem_cons_self _ _
    | some x =>
      rw [ht] at h
      simp only [Option.getD_some] at h
      subst h
      exact List.mem_cons_of_mem b (ih x ht)

theorem foldl_keepLast (p : List Char → Bool) :
    ∀ (ws : List (List Char)) (acc : List Char),
      ws.foldl (fun a w => if p w = true then w else a) acc
        = ((ws.filter p).getLast?).getD acc := by
  intro ws
  induction ws with
  | nil => intro acc; rfl
  | cons w ws ih =>
    intro acc
    simp only [List.foldl_cons, List.filter_cons]
    by_cases hp : p w = true
    · rw [if_pos hp, if_pos hp, ih, List.getLast?_cons]
      simp
    · rw [if_neg hp, if_neg hp, ih]

/-- C7 as stated fails on the code: for the input whose last
whitespace-delimited token is a plain word (no macro-escape character), the
claim requires the empty list, but getCompletions scans all words and keeps
the last backslash word, so it still completes it. -/
theorem getCompletions_last_token_counterexample :
    (fields ("\\al x".toList)).getLast? = some ("x".toList)
    ∧ (("\\".toList).isPrefixOf ("x".toList)) = false
    ∧ getCompletions ("\\al x".toList) ≠ [] := by
  decide

/-- C7 amended: the trigger is the last whitespace-delimited word that
begins with the macro-escape character, even when plain words follow it and
even when it is the single escape character alone (no minimum length); the
result holds exactly the registry entries whose name has the trigger as a
prefix, in the registry's iteration order (not sorted); only when no word
begins with the escape character is the result empty. -/
theorem getCompletions_characterization (content : List Char) :
    (lastBackslashWord content = none → getCompletions content = [])
    ∧ (∀ w, lastBackslashWord content = some w →
        ∀ comp, comp ∈ getCompletions content
          ↔ ∃ cmd, (cmd, comp) ∈ symbols ∧ w.isPrefixOf cmd.toList = true) := by
  constructor
  · intro hnone
    unfold lastBackslashWord at hnone
    rw [List.getLast?_eq_none_iff] at hnone
    unfold getCompletions
    by_cases hE : (fields content).isEmpty = true
    · rw [if_pos hE]
    · rw [if_neg hE, foldl_keepLast, hnone]
      rfl
  · intro w hw comp
    unfold lastBackslashWord at hw
    have hwmem := mem_of_getLast?_some _ _ hw
    rw [List.mem_filter] at hwmem
    have hwp : (("\\".toList).isPrefixOf w) = true := hwmem.2
    have hwne : w ≠ [] := by
      intro hnil
      rw [hnil] at hwp
      simp [List.isPrefixOf] at hwp
    have hne : fields content ≠ [] := List.ne_nil_of_mem hwmem.1
    have hE : (fields content).isEmpty = false := by
      cases hfc : fields content with
      | nil => exact absurd hfc hne
      | cons a b => rfl
    unfold getCompletions
    rw [if_neg (by rw [hE]; decide), foldl_keepLast, hw]
    simp only [Option.getD_some]
    unfold currentWordCompletions
    rw [if_neg (by rw [hwp]; simp [hwne])]
    rw [List.mem_filterMap]
    constructor
    · rintro ⟨e, he, hfe⟩
      by_cases hpre : (w.isPrefixOf e.1.toList) = true
      · rw [if_pos hpre] at hfe
        simp only [Option.some.injEq] at hfe
        exact ⟨e.1, by rw [← hfe]; exact he, hpre⟩
      · rw [if_neg hpre] at hfe
        simp at hfe
    · rintro ⟨cmd, hmem, hpre⟩
      refine ⟨(cmd, comp), hmem, ?_⟩
      rw [if_pos hpre]

/-- Witness for C7 amended: an input with no backslash word completes to
nothing, and a concrete backslash trigger yields the matching alpha
entry. -/
theorem getCompletions_characterization_witness :
    getCompletions ("hello x".toList) = []
    ∧ complAlpha ∈ getCompletions ("\\alp".toList) := by
  refine ⟨(getCompletions_characterization ("hello x".toList)).1 (by decide), ?_⟩
  exact ((getCompletions_characterization ("\\alp".toList)).2 ("\\alp".toList) (by decide)
    complAlpha).mpr ⟨"\\alpha", by decide, by decide⟩

theorem braceSum_cons (c : Char) (l : List Char) :
    braceSum (c :: l) = braceDelta c + braceSum l := by
  simp [braceSum]

theorem utf8Len_cons (c : Char) (l : List Char) :
    utf8Len (c :: l) = c.utf8Size + utf8Len l := by
  simp [utf8Len]

theorem braceLoop_snd (n : Nat) :
    ∀ (s : List Char) (bal : Int) (ofs : Nat),
      (braceLoop n s bal ofs).2 = bal + braceSum s := by
  intro s
  induction s with
  | nil => intro bal ofs; simp [braceLoop, braceSum]
  | cons c rest ih =>
    intro bal ofs
    simp only [braceLoop]
    split_ifs with h1 h2 h3
    · have hd : braceDelta c = 1 := by rw [h1]; rfl
      rw [ih, braceSum_cons, hd]
      omega
    · have hd : braceDelta c = -1 := by rw [h2]; rfl
      simp only
      rw [ih, braceSum_cons, hd]
      omega
    · have hd : braceDelta c = -1 := by rw [h2]; rfl
      rw [ih, braceSum_cons, hd]
      omega
    · have hd : braceDelta c = 0 := by simp [braceDelta, h1, h2]
      rw [ih, braceSum_cons, hd]
      omega

theorem braceSum_nil : braceSum [] = 0 := rfl

theorem utf8Len_nil : utf8Len [] = 0 := rfl

theorem closingColsFrom_cons (bal : Int) (ofs : Nat) (c : Char) (rest : List Char) :
    closingColsFrom bal ofs (c :: rest)
      = (if c = '\x7d' ∧ bal + braceDelta c < 0 then [(ofs : Int) + 1] else [])
        ++ closingColsFrom (bal + braceDelta c) (ofs + c.utf8Size) rest := by
  unfold closingColsFrom
  rw [List.length_cons, List.range_succ_eq_map, List.filterMap_cons, List.filterMap_map]
  have hhead : (if (c :: rest).get? 0 = some '\x7d'
        ∧ bal + braceSum ((c :: rest).take (0 + 1)) < 0 then
      some ((ofs : Int) + (utf8Len ((c :: rest).take 0) : Int) + 1)
    else none)
      = (if c = '\x7d' ∧ bal + braceDelta c < 0 then some ((ofs : Int) + 1) else none) := by
    simp only [List.get?_cons_zero, List.take_succ_cons, List.take_zero, braceSum_cons,
      braceSum_nil, add_zero, utf8Len_nil, Nat.cast_zero, Option.some.injEq]
  have htail : List.filterMap
        ((fun i =>
          if (c :: rest).get? i = some '\x7d' ∧ bal + braceSum ((c :: rest).take (i + 1)) < 0 then
            some ((ofs : Int) + (utf8Len ((c :: rest).take i) : Int) + 1)
          else none) ∘ Nat.succ) (List.range rest.length)
      = List.filterMap
        (fun i =>
          if rest.get? i = some '\x7d'
              ∧ (bal + braceDelta c) + braceSum (rest.take (i + 1)) < 0 then
            some (((ofs + c.utf8Size : Nat) : Int) + (utf8Len (rest.take i) : Int) + 1)
          else none) (List.range rest.length) := by
    congr 1
    funext i
    simp only [Function.comp_apply, Nat.succ_eq_add_one, List.get?_cons_succ,
      List.take_succ_cons, braceSum_cons, utf8Len_cons]
    split_ifs with ha hb hc
    · congr 1
      push_cast
      ring
    · exact absurd ⟨ha.1, by have := ha.2; omega⟩ hb
    · exact absurd ⟨hc.1, by have := hc.2; omega⟩ ha
    · rfl
  rw [hhead, htail]
  by_cases hc : c = '\x7d' ∧ bal + braceDelta c < 0
  · rw [if_pos hc, if_pos hc]
    rfl
  · rw [if_neg hc, if_neg hc]
    rfl

theorem braceLoop_columns (n : Nat) :
    ∀ (s : List Char) (bal : Int) (ofs : Nat),
      ((braceLoop n s bal ofs).1).map (fun d => d.Column) = closingColsFrom bal ofs s := by
  intro s
  induction s with
  | nil => intro bal ofs; rfl
  | cons c rest ih =>
    intro bal ofs
    rw [closingColsFrom_cons]
    by_cases h1 : c = '\x7b'
    · have hd : braceDelta c = 1 := by rw [h1]; rfl
      have hL : (braceLoop n (c :: rest) bal ofs).1
          = (braceLoop n rest (bal + 1) (ofs + c.utf8Size)).1 := by
        simp only [braceLoop, if_pos h1]
      rw [hL, if_neg (fun hcon => by rw [h1] at hcon; exact absurd hcon.1 (by decide)),
        List.nil_append, hd]
      exact ih (bal + 1) (ofs + c.utf8Size)
    · by_cases h2 : c = '\x7d'
      · have hd : braceDelta c = -1 := by rw [h2]; rfl
        by_cases h3 : bal - 1 < 0
        · have hL : (braceLoop n (c :: rest) bal ofs).1
              = ⟨(n : Int) + 1, (ofs : Int) + 1, "Unmatched closing brace", "error"⟩
                  :: (braceLoop n rest (bal - 1) (ofs + c.utf8Size)).1 := by
            simp only [braceLoop, if_neg h1, if_pos h2, if_pos h3]
          rw [hL, if_pos ⟨h2, by rw [hd]; omega⟩]
          simp only [List.map_cons]
          rw [ih (bal - 1) (ofs + c.utf8Size), hd, show bal + -1 = bal - 1 from by ring]
          rfl
        · have hL : (braceLoop n (c :: rest) bal ofs).1
              = (braceLoop n rest (bal - 1) (ofs + c.utf8Size)).1 := by
            simp only [braceLoop, if_neg h1, if_pos h2, if_neg h3]
          rw [hL, if_neg (fun hcon => by rw [hd] at hcon; exact absurd hcon.2 (by omega)),
            List.nil_append, hd, show bal + -1 = bal - 1 from by ring]
          exact ih (bal - 1) (ofs + c.utf8Size)
      · have hd : braceDelta c = 0 := by simp [braceDelta, h1, h2]
        have hL : (braceLoop n (c :: rest) bal ofs).1
            = (braceLoop n rest bal (ofs + c.utf8Size)).1 := by
          simp only [braceLoop, if_neg h1, if_neg h2]
        rw [hL, if_neg (fun hcon => absurd hcon.1 h2), List.nil_append, hd, add_zero]
        exact ih bal (ofs + c.utf8Size)

theorem closingColsFrom_zero (line : List Char) :
    closingColsFrom 0 0 line = closingColumns line := by
  unfold closingColsFrom closingColumns
  congr 1
  funext i
  simp

theorem lineDiags_eq (n : Nat) (line : List Char) :
    lineDiags n line
      = (braceLoop n line 0 0).1
        ++ (if braceSum line > 0 then
              [⟨(n : Int) + 1, (utf8Len line : Int), "Unmatched opening brace", "error"⟩]
            else [])
        ++ (if line.count '$' % 2 ≠ 0 then
              [⟨(n : Int) + 1, lastIndexDollar line + 1, "Unmatched math delimiter", "error"⟩]
            else []) := by
  unfold lineDiags
  rw [braceLoop_snd, zero_add]

theorem lineDiags_filter_closing (n : Nat) (line : List Char) :
    ((lineDiags n line).filter
        (fun d => decide (d.Message = "Unmatched closing brace"))).map (fun d => d.Column)
      = closingColumns line := by
  rw [lineDiags_eq, List.filter_append, List.filter_append]
  have hA : (braceLoop n line 0 0).1.filter
      (fun d => decide (d.Message = "Unmatched closing brace")) = (braceLoop n line 0 0).1 := by
    rw [List.filter_eq_self]
    intro d hd
    rw [(braceLoop_fields n line 0 0 d hd).2.1]
    decide
  have hB : (if braceSum line > 0 then
        [(⟨(n : Int) + 1, (utf8Len line : Int), "Unmatched opening brace", "error"⟩ : Diagnostic)]
      else []).filter (fun d => decide (d.Message = "Unmatched closing brace")) = [] := by
    split_ifs
    · rw [List.filter_cons, if_neg (by simp)]
      rfl
    · rfl
  have hC : (if line.count '$' % 2 ≠ 0 then
        [(⟨(n : Int) + 1, lastIndexDollar line + 1, "Unmatched math delimiter", "error"⟩
           : Diagnostic)]
      else []).filter (fun d => decide (d.Message = "Unmatched closing brace")) = [] := by
    split_ifs
    · rw [List.filter_cons, if_neg (by simp)]
      rfl
    · rfl
  rw [hA, hB, hC, List.append_nil, List.append_nil, ← closingColsFrom_zero]
  exact braceLoop_columns n line 0 0

theorem lineDiags_filter_opening (n : Nat) (line : List Char) :
    ((lineDiags n line).filter
        (fun d => decide (d.Message = "Unmatched opening brace"))).map (fun d => d.Column)
      = (if braceSum line > 0 then [(utf8Len line : Int)] else []) := by
  rw [lineDiags_eq, List.filter_append, List.filter_append]
  have hA : (braceLoop n line 0 0).1.filter
      (fun d => decide (d.Message = "Unmatched opening brace")) = [] := by
    rw [List.filter_eq_nil_iff]
    intro d hd
    rw [(braceLoop_fields n line 0 0 d hd).2.1]
    decide
  have hC : (if line.count '$' % 2 ≠ 0 then
        [(⟨(n : Int) + 1, lastIndexDollar line + 1, "Unmatched math delimiter", "error"⟩
           : Diagnostic)]
      else []).filter (fun d => decide (d.Message = "Unmatched opening brace")) = [] := by
    split_ifs
    · rw [List.filter_cons, if_neg (by simp)]
      rfl
    · rfl
  rw [hA, hC, List.nil_append, List.append_nil]
  split_ifs
  · rw [List.filter_cons, if_pos (by simp)]
    rfl
  · rfl

theorem lineDiags_filter_math (n : Nat) (line : List Char) :
    ((lineDiags n line).filter
        (fun d => decide (d.Message = "Unmatched math delimiter"))).map (fun d => d.Column)
      = (if line.count '$' % 2 = 1 then [lastIndexDollar line + 1] else []) := by
  rw [lineDiags_eq, List.filter_append, List.filter_append]
  have hA : (braceLoop n line 0 0).1.filter
      (fun d => decide (d.Message = "Unmatched math delimiter")) = [] := by
    rw [List.filter_eq_nil_iff]
    intro d hd
    rw [(braceLoop_fields n line 0 0 d hd).2.1]
    decide
  have hB : (if braceSum line > 0 then
        [(⟨(n : Int) + 1, (utf8Len line : Int), "Unmatched opening brace", "error"⟩ : Diagnostic)]
      else []).filter (fun d => decide (d.Message = "Unmatched math delimiter")) = [] := by
    split_ifs
    · rw [List.filter_cons, if_neg (by simp)]
      rfl
    · rfl
  rw [hA, hB, List.nil_append, List.nil_append]
  rcases Nat.mod_two_eq_zero_or_one (line.count '$') with h | h
  · rw [if_neg (by omega), if_neg (by omega)]
    rfl
  · rw [if_pos (by omega), if_pos h, List.filter_cons, if_pos (by simp)]
    rfl

theorem filter_line_enumFrom :
    ∀ (L : List (List Char)) (k n : Nat) (line : List Char), L.get? n = some line →
      (((L.enumFrom k).map (fun p => lineDiags p.1 p.2)).flatten).filter
          (fun d => decide (d.Line = ((k + n : Nat) : Int) + 1))
        = lineDiags (k + n) line := by
  intro L
  induction L with
  | nil => intro k n line h; simp at h
  | cons l0 L ih =>
    intro k n line h
    rw [List.enumFrom_cons, List.map_cons, List.flatten_cons, List.filter_append]
    cases n with
    | zero =>
      rw [List.get?_cons_zero, Option.some.injEq] at h
      rw [← h]
      have hself : (lineDiags k l0).filter
          (fun d => decide (d.Line = ((k + 0 : Nat) : Int) + 1)) = lineDiags k l0 := by
        rw [List.filter_eq_self]
        intro d hd
        rw [(lineDiags_fields k l0 d hd).1]
        simp
      have hrest : (((List.enumFrom (k + 1) L).map (fun p => lineDiags p.1 p.2)).flatten).filter
          (fun d => decide (d.Line = ((k + 0 : Nat) : Int) + 1)) = [] := by
        rw [List.filter_eq_nil_iff]
        intro d hd
        simp only [List.mem_flatten, List.mem_map] at hd
        obtain ⟨bl, ⟨p, hp, hbl⟩, hdbl⟩ := hd
        rw [← hbl] at hdbl
        rcases p with ⟨i, li⟩
        have hbound := (List.mem_enumFrom hp).1
        have hline := (lineDiags_fields i li d hdbl).1
        rw [hline]
        simp only [decide_eq_true_eq]
        omega
      rw [hself, hrest, List.append_nil, Nat.add_zero]
    | succ m =>
      rw [List.get?_cons_succ] at h
      have hfirst : (lineDiags k l0).filter
          (fun d => decide (d.Line = ((k + (m + 1) : Nat) : Int) + 1)) = [] := by
        rw [List.filter_eq_nil_iff]
        intro d hd
        rw [(lineDiags_fields k l0 d hd).1]
        simp only [decide_eq_true_eq]
        omega
      have heq : k + (m + 1) = (k + 1) + m := by omega
      rw [hfirst, List.nil_append, heq]
      exact ih (k + 1) m line h

/-- C5: the validation pass works per line of the original content.
Filtering its diagnostics by a line number gives exactly that line's
diagnostics; within one line, the unmatched closing brace diagnostics sit
exactly at the byte columns whose closing brace takes the prefix brace
balance negative, exactly one unmatched opening brace diagnostic appears
(at the line's byte length) precisely when the line's brace balance ends
positive, and exactly one unmatched math delimiter diagnostic appears (just
after the last dollar sign) precisely when the line holds an odd number of
dollar characters; in particular the specified concrete contents produce
exactly the specified diagnostics. -/
theorem validateSyntax_per_line :
    (∀ (content : List Char) (n : Nat) (line : List Char),
       (splitLines content).get? n = some line →
       (validateSyntax content).filter (fun d => decide (d.Line = ((n : Nat) : Int) + 1))
         = lineDiags n line)
    ∧ (∀ (n : Nat) (line : List Char),
       ((lineDiags n line).filter
           (fun d => decide (d.Message = "Unmatched closing brace"))).map (fun d => d.Column)
         = closingColumns line
       ∧ ((lineDiags n line).filter
           (fun d => decide (d.Message = "Unmatched opening brace"))).map (fun d => d.Column)
         = (if braceSum line > 0 then [(utf8Len line : Int)] else [])
       ∧ ((lineDiags n line).filter
           (fun d => decide (d.Message = "Unmatched math delimiter"))).map (fun d => d.Column)
         = (if line.count '$' % 2 = 1 then [lastIndexDollar line + 1] else []))
    ∧ validateSyntax ("\\textbf\x7bbold".toList)
        = [⟨1, 12, "Unmatched opening brace", "error"⟩]
    ∧ validateSyntax ("extra\x7d".toList)
        = [⟨1, 6, "Unmatched closing brace", "error"⟩]
    ∧ validateSyntax ("a$b$c$".toList)
        = [⟨1, 6, "Unmatched math delimiter", "error"⟩]
    ∧ validateSyntax ("a$b$".toList) = []
    ∧ validateSyntax ("$a$b$c$".toList) = [] := by
  refine ⟨?_, ?_, by decide, by decide, by decide, by decide, by decide⟩
  · intro content n line h
    have hf := filter_line_enumFrom (splitLines content) 0 n line h
    rw [Nat.zero_add] at hf
    unfold validateSyntax
    exact hf
  · intro n line
    exact ⟨lineDiags_filter_closing n line, lineDiags_filter_opening n line,
      lineDiags_filter_math n line⟩

/-- Witness for C5: the per-line decomposition evaluated on a two-line
content whose second line holds the unmatched closing brace. -/
theorem validateSyntax_per_line_witness :
    (validateSyntax ("ab\nextra\x7d".toList)).filter
        (fun d => decide (d.Line = ((1 : Nat) : Int) + 1))
      = lineDiags 1 ("extra\x7d".toList) := by
  have h := validateSyntax_per_line
  exact h.1 ("ab\nextra\x7d".toList) 1 ("extra\x7d".toList) (by decide)
